import Mathlib

/-!
Shallow embedding of the flecs storage/lookup core.

The embedding covers:
 * the staged hierarchy lookup (`find_child_in_table`, `find_child_in_staged`,
   `ecs_lookup_child`, `ecs_lookup`),
 * the path resolver (`path_append`, `ecs_get_path_w_sep`,
   `ecs_lookup_path_w_sep`),
 * the tree iterator (`ecs_tree_iter`, `ecs_tree_next`),
 * the growable vector's growth policy (modelled from the spec; only the
   header with declarations is in the sources).

Machine integers (`ecs_entity_t`, `int32_t`) are modelled as `Nat`;
none of the translated routines can overflow them on the inputs the
theorems quantify over, and entity id 0 is the not-found sentinel as in C.
Strings are modelled as Lean `String`/`List Char`; C strings of the code
are NUL-terminated and NUL never occurs inside a name, so the models agree.
-/

namespace Flecs

/-- `ecs_entity_t`: opaque 64-bit id; 0 is the not-found sentinel. -/
abbrev EntityId := Nat

/-- Component ids as they occur in a table's type (signature). -/
abbrev ComponentId := Nat

/-- The builtin id `ecs_entity(EcsName)` of the Name component.  Its concrete
numeric value is irrelevant to the embedded code; it only has to be a fixed
id that `ecs_type_index_of` can search for. -/
def EcsNameComp : ComponentId := 1

/-- `ecs_column_t`: one component column of a table's data.  The only column
the embedded code ever reads is the Name column, so a column's payload is
modelled as its interpretation as `EcsName` (a string per row). -/
structure Column where
  names : List String
  deriving Repr, DecidableEq

/-- `ecs_data_t`: per-stage data of a table: the entity-id vector plus the
component columns (the `columns` pointer may be NULL in C, hence `Option`). -/
structure TableData where
  entities : List EntityId
  columns : Option (List Column)
  deriving Repr, DecidableEq

/-- `ecs_table_t`: immutable type signature plus the per-stage data vector
`stage_data`, indexed by stage id.  Index 0 is the canonical world stage's
data; index `s` is stage `s`'s overlay; an out-of-range index means the
stage has no data for this table (NULL in C). -/
structure Table where
  type : List ComponentId
  stage_data : List TableData
  deriving Repr, DecidableEq

/-- `ecs_stage_t`: the world stage has id 0; any other id is a transaction
stage.  `tables` is the stage's own sparse set of tables (tables created
while staged), iterated by `find_child_in_staged`. -/
structure Stage where
  id : Nat
  tables : List Table
  deriving Repr, DecidableEq

/-- `ecs_world_t`, restricted to what the embedded code reads:
`child_tables` is the hierarchy index (parent entity to list of canonical
tables), and `parentOf`/`nameOf` model the external collaborators
`ecs_find_in_type world (ecs_get_type world e) 0 ECS_CHILDOF` (the ChildOf
target of an entity, 0 at the hierarchy root) and `ecs_get_name world e`. -/
structure World where
  child_tables : List (EntityId × List Table)
  parentOf : EntityId → EntityId
  nameOf : EntityId → String

/-- `ecs_map_get_ptr(world->child_tables, ecs_vector_t*, parent)`. -/
def World.childTablesOf (w : World) (parent : EntityId) : Option (List Table) :=
  w.child_tables.lookup parent

/-- `ecs_type_index_of(type, component)`: index of a component inside a
type, `none` for the C result -1. -/
def ecs_type_index_of (type : List ComponentId) (c : ComponentId) : Option Nat :=
  type.findIdx? (fun x => x = c)

/-- `ecs_table_get_staged_data(world, stage, table)`: the data the given
stage holds for the table (NULL when the stage has none). -/
def ecs_table_get_staged_data (stageId : Nat) (table : Table) : Option TableData :=
  table.stage_data.get? stageId

/-- The row scan inside `find_child_in_table`: walk the Name column and the
entity column in lock-step, returning the entity of the first row whose
name compares equal (`strcmp == 0`), 0 when no row matches.  The C loop
bound is the entity count; tables keep columns row-aligned with the entity
vector, which the parallel-list recursion reflects. -/
def scanRows (names : List String) (entities : List EntityId) (name : String) :
    EntityId :=
  match names, entities with
  | n :: ns, e :: es => if n = name then e else scanRows ns es name
  | _, _ => 0

/-- `find_child_in_table`: look a name up in one table's data as held by one
stage.  Returns 0 when the stage has no data for the table, the columns
pointer is NULL, the table is empty, or no row matches. -/
def find_child_in_table (stageId : Nat) (table : Table) (name_index : Nat)
    (name : String) : EntityId :=
  match ecs_table_get_staged_data stageId table with
  | none => 0
  | some data =>
    match data.columns with
    | none => 0
    | some cols =>
      if data.entities.length = 0 then 0
      else
        scanRows ((cols.getD name_index ⟨[]⟩).names) data.entities name

/-- The per-stage-table body of `find_child_in_staged`'s `ecs_sparse_each`
loop: skip tables without a Name column, otherwise search the stage's data
for the table; the first nonzero hit is returned. -/
def find_child_in_staged_list (stageId : Nat) (name : String) :
    List Table → EntityId
  | [] => 0
  | table :: rest =>
    match ecs_type_index_of table.type EcsNameComp with
    | none => find_child_in_staged_list stageId name rest
    | some ni =>
      let result := find_child_in_table stageId table ni name
      if result ≠ 0 then result else find_child_in_staged_list stageId name rest

/-- `find_child_in_staged`: exhaustively scan every table known to the
stage, in the stage's own enumeration order.  (The C function receives
`parent` but never reads it, which the model reproduces.) -/
def find_child_in_staged (stage : Stage) (_parent : EntityId) (name : String) :
    EntityId :=
  find_child_in_staged_list stage.id name stage.tables

/-- The per-table step of `ecs_lookup_child`'s indexed tier (lines 128-134):
consult the active stage's data for the table first; only when that yields
0 and the active stage is not the world stage, consult the world stage's
(canonical) data. -/
def lookup_in_table (stageId : Nat) (table : Table) (name_index : Nat)
    (name : String) : EntityId :=
  let result := find_child_in_table stageId table name_index name
  if result = 0 then
    if stageId ≠ 0 then find_child_in_table 0 table name_index name else 0
  else result

/-- The `ecs_vector_each` loop over `child_tables[parent]` in
`ecs_lookup_child`: tables in index order, skipping tables without a Name
column, returning the first nonzero per-table result. -/
def lookup_child_tables_loop (stageId : Nat) (name : String) :
    List Table → EntityId
  | [] => 0
  | table :: rest =>
    match ecs_type_index_of table.type EcsNameComp with
    | none => lookup_child_tables_loop stageId name rest
    | some ni =>
      let result := lookup_in_table stageId table ni name
      if result ≠ 0 then result else lookup_child_tables_loop stageId name rest

/-- `ecs_lookup_child`: the two-tier staged lookup.  The active stage is the
explicit `stage` argument (the C code obtains it from the execution context
via `ecs_get_stage`); `stage.id = 0` means the world stage is active. -/
def ecs_lookup_child (w : World) (stage : Stage) (parent : EntityId)
    (name : String) : EntityId :=
  let result :=
    match w.childTablesOf parent with
    | none => 0
    | some tables => lookup_child_tables_loop stage.id name tables
  if result = 0 ∧ stage.id ≠ 0 then find_child_in_staged stage parent name
  else result

/-- The digit-run accumulator behind `atoi`.  libc `atoi` on a string whose
first character is a decimal digit converts the maximal leading digit run;
the embedded call site guarantees exactly that shape (no whitespace, no
sign), and conversion stays within the defined range on the inputs the
theorems use. -/
def atoiLoop : List Char → Nat → Nat
  | c :: rest, acc =>
    if c.isDigit then atoiLoop rest (acc * 10 + (c.toNat - 48)) else acc
  | [], acc => acc

/-- `atoi` at the `ecs_lookup` call site. -/
def atoi (s : String) : Nat := atoiLoop s.toList 0

/-- `ecs_lookup`: top-level lookup (no explicit parent).  NULL names give 0;
a name whose first character is a decimal digit (`isdigit(name[0])`; the
empty string has `name[0] = NUL`, not a digit) is converted with `atoi` and
returned; otherwise the name is looked up as a child of entity 0. -/
def ecs_lookup (w : World) (stage : Stage) (name : Option String) : EntityId :=
  match name with
  | none => 0
  | some s =>
    match s.toList with
    | c :: _ => if c.isDigit then atoi s else ecs_lookup_child w stage 0 s
    | [] => ecs_lookup_child w stage 0 s

/-- `strncmp(p, q, strlen(q)) == 0` on char lists: does `q` (the separator
or prefix token) literally occur at the head of `p`?  A NUL terminator in C
stops the comparison with a mismatch, which the empty-list case mirrors. -/
def strncmpEq : List Char → List Char → Bool
  | [], _ => true
  | _ :: _, [] => false
  | c :: cs, d :: ds => c = d && strncmpEq cs ds

/-- `path_append`: recursive pre-order path construction.  The string-buffer
argument of the C code is modelled by returning the appended text; `fuel`
bounds the recursion depth (the C recursion terminates exactly when the
ChildOf chain is finite, and for every fuel of at least the chain length
the model computes the same string the C code writes). -/
def path_append (w : World) (pfx : Option String) (sep : String)
    (parent : EntityId) : Nat → EntityId → String
  | 0, _ => ""
  | fuel + 1, child =>
    let cur := w.parentOf child
    let head :=
      if cur ≠ 0 then
        if cur ≠ parent then
          path_append w pfx sep parent fuel cur ++ sep
        else ""
      else
        match pfx with
        | some p => p
        | none => ""
    head ++ w.nameOf child

/-- `ecs_get_path_w_sep` (the unused `component` parameter of the C
signature is absorbed into `World.parentOf`): empty string when parent and
child coincide, otherwise the `path_append` recursion. -/
def ecs_get_path_w_sep (w : World) (fuel : Nat) (parent child : EntityId)
    (sep : String) (pfx : Option String) : String :=
  if parent ≠ child then path_append w pfx sep parent fuel child else ""

/-- The character loop of `ecs_lookup_path_w_sep`: `cur` is the running
current entity, `buff` the segment accumulated so far, `rest` the unread
characters.  At a separator occurrence (`is_sep`) the accumulated segment
is looked up and a not-found result aborts the whole call with 0; at the
end of the string a nonempty leftover segment is looked up as one final
implicit segment.  The `sep ≠ []` conjunct only makes the model total: on
an empty separator the C loop never advances (`is_sep` always matches and
moves the cursor by `len - 1 = -1`, cancelled by the `ptr++`), so no
behavior is claimed for it.  `fuel` makes the recursion structural; every
step consumes at least one character, so any fuel of at least the length of
the remaining input computes the C loop's result. -/
def lookup_path_loop (w : World) (st : Stage) (sep : List Char) :
    Nat → EntityId → List Char → List Char → EntityId
  | _, cur, buff, [] =>
    if buff ≠ [] then ecs_lookup_child w st cur (String.mk buff) else cur
  | 0, _, _, _ :: _ => 0
  | fuel + 1, cur, buff, ch :: rest =>
    if sep ≠ [] ∧ strncmpEq sep (ch :: rest) then
      let cur' := ecs_lookup_child w st cur (String.mk buff)
      if cur' = 0 then 0
      else lookup_path_loop w st sep fuel cur' [] (List.drop sep.length (ch :: rest))
    else
      lookup_path_loop w st sep fuel cur (buff ++ [ch]) rest

/-- `ecs_lookup_path_w_sep`: optional literal prefix strip (re-anchoring
resolution at entity 0), then the segment loop.  The loop fuel is the full
path length, which bounds the character count left after the strip. -/
def ecs_lookup_path_w_sep (w : World) (st : Stage) (parent : EntityId)
    (path sep : String) (pfx : Option String) : EntityId :=
  let start :=
    match pfx with
    | some p =>
      if strncmpEq p.toList path.toList then
        (path.toList.drop p.length, (0 : EntityId))
      else (path.toList, parent)
    | none => (path.toList, parent)
  lookup_path_loop w st sep.toList path.toList.length start.2 [] start.1

/-- `ecs_table_count`: row count of a table, read from the canonical
(world-stage) data, 0 when the table has none.  (The function itself lives
outside the sources; this is the row count of the committed data that the
iterator batches expose, per the spec's "its row count".) -/
def ecs_table_count (t : Table) : Nat :=
  match t.stage_data.head? with
  | some d => d.entities.length
  | none => 0

/-- `ecs_tree_iter_t`: the snapshot of `child_tables[parent]` plus the
advancing index.  A missing map entry is a NULL vector in C, whose count is
0; it is modelled as the empty list. -/
structure TreeIter where
  tables : List Table
  index : Nat
  deriving Repr, DecidableEq

/-- `ecs_view_t`, restricted to the fields `ecs_tree_next` writes.  The
fields below `iter` are uninitialized until the first successful `next`
(C leaves them unspecified), hence the `Option`/default placeholders in
`ecs_tree_iter`. -/
structure View where
  iter : TreeIter
  table : Option Table
  count : Nat
  entities : List EntityId
  table_columns : Option (List Column)
  deriving Repr, DecidableEq

/-- `ecs_tree_iter`: capture the canonical child-table list of the parent
and start the index at 0. -/
def ecs_tree_iter (w : World) (parent : EntityId) : View :=
  { iter := { tables := (w.childTablesOf parent).getD [], index := 0 },
    table := none, count := 0, entities := [], table_columns := none }

/-- The `for` loop of `ecs_tree_next`, walking the suffix of the table list
that starts at the current index (`i` is the absolute index of the suffix
head).  Tables whose `stage_data` vector is empty (NULL `data` pointer) are
skipped without touching the view; a table with data but zero rows is
skipped after the C code has already stored the zero row count in
`view->count`.  On a live table all batch fields are written, the index is
advanced past the table, and the call reports true. -/
def tree_next_loop (v : View) : List Table → Nat → View × Bool
  | [], _ => (v, false)
  | t :: rest, i =>
    match t.stage_data.head? with
    | none => tree_next_loop v rest (i + 1)
    | some data =>
      let v₁ := { v with count := ecs_table_count t }
      if ecs_table_count t = 0 then tree_next_loop v₁ rest (i + 1)
      else
        ({ v₁ with
            table := some t,
            table_columns := data.columns,
            entities := data.entities,
            iter := { v₁.iter with index := i + 1 } }, true)

/-- `ecs_tree_next` as a pure state transformer on the view. -/
def ecs_tree_next (v : View) : View × Bool :=
  tree_next_loop v (v.iter.tables.drop v.iter.index) v.iter.index

/-- One yielded batch: the fields `ecs_tree_next` exposes on success. -/
structure Batch where
  table : Table
  count : Nat
  entities : List EntityId
  table_columns : Option (List Column)
  deriving Repr, DecidableEq

/-- Drain the iterator: collect the batch of every successful `next` until
the first false.  `fuel` bounds the loop; any fuel of at least the table
count drains the iterator completely. -/
def collectBatches : Nat → View → List Batch
  | 0, _ => []
  | fuel + 1, v =>
    match ecs_tree_next v with
    | (_, false) => []
    | (v', true) =>
      { table := v'.table.getD ⟨[], []⟩, count := v'.count,
        entities := v'.entities, table_columns := v'.table_columns } ::
        collectBatches fuel v'

/-! ## Spec-side definitions for the tree iterator -/

/-- Does the table have canonical data at all (non-NULL `data` pointer)? -/
def hasData (t : Table) : Bool := (t.stage_data.head?).isSome

/-- From the spec: a table is yielded iff it has canonical data and "at
least one live row". -/
def isLive (t : Table) : Bool := hasData t && (ecs_table_count t != 0)

/-- The canonical data of a table (defaulting to empty, used only under a
`hasData` guard). -/
def canonData (t : Table) : TableData := (t.stage_data.head?).getD ⟨[], none⟩

/-- From the spec: the batch a live table is exposed as — "the table
reference, its row count, its entity-id array, and its column array
pointers". -/
def tableBatch (t : Table) : Batch :=
  { table := t, count := ecs_table_count t,
    entities := (canonData t).entities,
    table_columns := (canonData t).columns }

/-- The decomposition of a table list at its first live table: the (all
non-live) block before it, the table itself, and the remainder. -/
structure SplitLive where
  pre : List Table
  tab : Table
  post : List Table
  deriving Repr, DecidableEq

/-- Split a table list at its first live table, `none` when no table of
the list is live. -/
def splitFirstLive : List Table → Option SplitLive
  | [] => none
  | t :: rest =>
    if isLive t then some ⟨[], t, rest⟩
    else
      match splitFirstLive rest with
      | some s => some ⟨t :: s.pre, s.tab, s.post⟩
      | none => none

/-!  ## Growable vector (growth policy)

Only `vector.h` — the struct layout and the API declarations with their
documented behavior — is in the sources; `vector.c` is not.  The growth
behavior is therefore modelled from the spec. -/

/-- The `{count, size}` header of `ecs_vector_t` (`size` is the capacity;
the debug-only `elem_size` field and the element payload carry no
information the growth claims touch). -/
structure Vec where
  count : Nat
  size : Nat
  deriving Repr, DecidableEq

/-- A fresh container: a NULL `ecs_vector_t*` reads as count 0 and size 0
(`ecs_vector_count`/`ecs_vector_size` return 0 on NULL). -/
def Vec.fresh : Vec := { count := 0, size := 0 }

/-- Keep doubling `acc` until it reaches `n`; `fuel` bounds the number of
doublings (starting from 1, `n` doublings always suffice). -/
def nextPow2Go (n : Nat) : Nat → Nat → Nat
  | 0, acc => acc
  | fuel + 1, acc => if n ≤ acc then acc else nextPow2Go n fuel (2 * acc)

/-- The smallest power of two greater than or equal to `n` (and at least
1): the "next power of two" of the growth algorithm. -/
def nextPow2 (n : Nat) : Nat := nextPow2Go n n 1

/-- Modelled from the spec: `_ecs_vector_add` appends one slot; "on
overflow, new capacity = next power of two ≥ requested count (minimum 1);
capacity is otherwise monotonic non-decreasing except via explicit
`reclaim`" (vector.h lines 24-27 state the same resize-to-next-power-of-two
rule). -/
def Vec.add (v : Vec) : Vec :=
  let c := v.count + 1
  if v.size < c then { count := c, size := nextPow2 c }
  else { count := c, size := v.size }

/-- Modelled from the spec: `_ecs_vector_set_min_size` grows the capacity
to at least `n` and has no effect when the capacity is already larger. -/
def Vec.set_min_size (v : Vec) (n : Nat) : Vec :=
  if v.size < n then { v with size := n } else v

/-- Modelled from the spec: `_ecs_vector_reclaim` shrinks the capacity down
to the current count. -/
def Vec.reclaim (v : Vec) : Vec := { v with size := v.count }

/-- `N` sequential `add` calls. -/
def Vec.addN : Nat → Vec → Vec
  | 0, v => v
  | n + 1, v => (Vec.addN n v).add

/-! ## Concrete instances used by witnesses and counterexamples -/

/-- A canonical table under parent 1 holding two children, ids 2 and 3,
both named "kid" (duplicate sibling names are legal). -/
def dupTable : Table :=
  { type := [EcsNameComp],
    stage_data := [{ entities := [2, 3], columns := some [⟨["kid", "kid"]⟩] }] }

/-- World with parent 1 and the duplicate-named children 2 and 3. -/
def dupW : World :=
  { child_tables := [(1, [dupTable])],
    parentOf := fun e => if e = 2 ∨ e = 3 then 1 else 0,
    nameOf := fun e => if e = 2 ∨ e = 3 then "kid" else "" }

/-- The canonical world stage (id 0, no staged tables). -/
def worldStage : Stage := { id := 0, tables := [] }

/-- Two-level world: entity 2 is child "a" of 1, entity 3 is child "b"
of 2, with both levels indexed under `child_tables`. -/
def twoLevelTableA : Table :=
  { type := [EcsNameComp],
    stage_data := [{ entities := [2], columns := some [⟨["a"]⟩] }] }

def twoLevelTableB : Table :=
  { type := [EcsNameComp],
    stage_data := [{ entities := [3], columns := some [⟨["b"]⟩] }] }

def twoLevelW : World :=
  { child_tables := [(1, [twoLevelTableA]), (2, [twoLevelTableB])],
    parentOf := fun e => if e = 2 then 1 else if e = 3 then 2 else 0,
    nameOf := fun e => if e = 2 then "a" else if e = 3 then "b" else "" }

/-- Table whose canonical (index 0) row names child 2 "old" and whose
stage-1 overlay names it "new": the state after renaming inside stage 1,
before commit. -/
def renameTable : Table :=
  { type := [EcsNameComp],
    stage_data := [{ entities := [2], columns := some [⟨["old"]⟩] },
                   { entities := [2], columns := some [⟨["new"]⟩] }] }

def renameW : World :=
  { child_tables := [(1, [renameTable])],
    parentOf := fun e => if e = 2 then 1 else 0,
    nameOf := fun e => if e = 2 then "old" else "" }

/-- Stage 1 of the rename scenario (no staged-only tables). -/
def renameStage : Stage := { id := 1, tables := [] }

/-- A table created inside stage 1 and not yet registered in
`child_tables`: only its stage-1 slot holds data (child 7 named "ghost"). -/
def stagedTable : Table :=
  { type := [EcsNameComp],
    stage_data := [{ entities := [], columns := none },
                   { entities := [7], columns := some [⟨["ghost"]⟩] }] }

/-- Stage 1 with the staged-only table in its table set. -/
def stagedStage : Stage := { id := 1, tables := [stagedTable] }

/-- The view of the duplicate world's iterator after its single batch has
been yielded: the index stands past the end of the table list. -/
def pastDupView : View :=
  { iter := { tables := [dupTable], index := 1 },
    table := some dupTable, count := 2, entities := [2, 3],
    table_columns := some [⟨["kid", "kid"]⟩] }

/-! ## Spec-side definitions for the path resolver -/

/-- Modelled from the spec: splitting a path on each literal occurrence of
a single-character separator, scanning left to right ("splits the
remainder on the first literal occurrence of separator per step"); an
empty input yields one empty segment. -/
def splitOnChar (c : Char) : List Char → List (List Char)
  | [] => [[]]
  | ch :: rest =>
    if ch = c then [] :: splitOnChar c rest
    else
      match splitOnChar c rest with
      | s :: ss => (ch :: s) :: ss
      | [] => [[ch]]

/-- Modelled from the spec: chained resolution of the segment list —
"resolves each segment via lookupByName against the running current
entity; any segment resolving to not-found aborts immediately and the
whole call returns not-found", while "a trailing run of characters without
a following separator is treated as one final implicit segment", so an
empty final segment (the text after a trailing separator) is not looked
up. -/
def resolveSegs (w : World) (st : Stage) : EntityId → List (List Char) → EntityId
  | cur, [] => cur
  | cur, [s] =>
    if s.isEmpty then cur else ecs_lookup_child w st cur (String.mk s)
  | cur, s :: s' :: ss =>
    let nxt := ecs_lookup_child w st cur (String.mk s)
    if nxt = 0 then 0 else resolveSegs w st nxt (s' :: ss)

/-- Prepend already-buffered characters onto the first segment of a
segment list. -/
def consHead (buff : List Char) : List (List Char) → List (List Char)
  | [] => [buff]
  | s :: ss => (buff ++ s) :: ss

/-! ## Spec-side definitions for ChildOf chains -/

/-- Join a list of names with a separator between consecutive entries. -/
def joinSep (sep : String) : List String → String
  | [] => ""
  | [s] => s
  | s :: s' :: rest => s ++ sep ++ joinSep sep (s' :: rest)

/-- An upward ChildOf chain: `ancChain w top (e :: u)` says the ChildOf
target of `e` is the next entry of `u`, each entry's target is the entry
after it, and the last entry's target is `top`.  This is "E is reachable
from `top` via ChildOf links", listed from E upwards, `top` excluded. -/
def ancChain (w : World) (top : EntityId) : List EntityId → Prop
  | [] => True
  | [e] => w.parentOf e = top
  | e :: e' :: u => w.parentOf e = e' ∧ ancChain w top (e' :: u)

/-- Downward lookup recovery along a chain: starting at `p`, looking each
listed entity's name up under the previously recovered entity returns that
entity.  This is what `lookupByPath` needs of every segment; shadowing by
an earlier duplicate name, for example, breaks it. -/
def chainLookups (w : World) (st : Stage) : EntityId → List EntityId → Prop
  | _, [] => True
  | p, e :: es =>
    ecs_lookup_child w st p (w.nameOf e) = e ∧ chainLookups w st e es

/-! ## Helper lemmas: the next-power-of-two function -/

lemma nextPow2Go_le (n : Nat) :
    ∀ fuel acc, n ≤ 2 ^ fuel * acc → n ≤ nextPow2Go n fuel acc := by
  intro fuel
  induction fuel with
  | zero => intro acc h; simpa [nextPow2Go] using h
  | succ fuel ih =>
    intro acc h
    simp only [nextPow2Go]
    split
    · assumption
    · exact ih (2 * acc) (by rwa [pow_succ, Nat.mul_assoc] at h)

lemma nextPow2_ge (n : Nat) : n ≤ nextPow2 n := by
  have := Nat.lt_two_pow n
  exact nextPow2Go_le n n 1 (by omega)

lemma nextPow2Go_pow (n : Nat) :
    ∀ fuel j, ∃ k, nextPow2Go n fuel (2 ^ j) = 2 ^ k := by
  intro fuel
  induction fuel with
  | zero => intro j; exact ⟨j, rfl⟩
  | succ fuel ih =>
    intro j
    simp only [nextPow2Go]
    split
    · exact ⟨j, rfl⟩
    · have h := ih (j + 1)
      rwa [pow_succ, Nat.mul_comm] at h

lemma nextPow2_pow (n : Nat) : ∃ k, nextPow2 n = 2 ^ k := by
  have h := nextPow2Go_pow n n 0
  simpa [nextPow2] using h

lemma nextPow2Go_min (n : Nat) :
    ∀ fuel j m, n ≤ 2 ^ m → j ≤ m → nextPow2Go n fuel (2 ^ j) ≤ 2 ^ m := by
  intro fuel
  induction fuel with
  | zero =>
    intro j m _ hjm
    exact Nat.pow_le_pow_right (by omega) hjm
  | succ fuel ih =>
    intro j m hm hjm
    simp only [nextPow2Go]
    split
    · exact Nat.pow_le_pow_right (by omega) hjm
    · rename_i hlt
      have hj : 2 ^ j < 2 ^ m := by omega
      have hjm' : j < m := (Nat.pow_lt_pow_iff_right Nat.one_lt_two).mp hj
      have h := ih (j + 1) m hm (by omega)
      rwa [pow_succ, Nat.mul_comm] at h

lemma nextPow2_min (n m : Nat) (h : n ≤ 2 ^ m) : nextPow2 n ≤ 2 ^ m := by
  have := nextPow2Go_min n n 0 m h (Nat.zero_le m)
  simpa [nextPow2] using this

lemma nextPow2_stable (n : Nat) (h : n + 1 ≤ nextPow2 n) :
    nextPow2 (n + 1) = nextPow2 n := by
  obtain ⟨k, hk⟩ := nextPow2_pow n
  obtain ⟨k', hk'⟩ := nextPow2_pow (n + 1)
  apply Nat.le_antisymm
  · rw [hk]; exact nextPow2_min (n + 1) k (hk ▸ h)
  · rw [hk']
    apply nextPow2_min n k'
    rw [← hk']
    exact Nat.le_trans (Nat.le_succ n) (nextPow2_ge (n + 1))

lemma Vec.addN_succ (N : Nat) (v : Vec) :
    Vec.addN (N + 1) v = (Vec.addN N v).add := rfl

lemma Vec.add_count (v : Vec) : v.add.count = v.count + 1 := by
  simp only [Vec.add]
  split <;> rfl

lemma Vec.add_size (v : Vec) :
    v.add.size =
      if v.size < v.count + 1 then nextPow2 (v.count + 1) else v.size := by
  simp only [Vec.add]
  split <;> simp_all

lemma addN_count_size (N : Nat) :
    (Vec.addN N Vec.fresh).count = N ∧
    (1 ≤ N → (Vec.addN N Vec.fresh).size = nextPow2 N) := by
  induction N with
  | zero => exact ⟨rfl, by omega⟩
  | succ N ih =>
    refine ⟨?_, fun _ => ?_⟩
    · rw [Vec.addN_succ, Vec.add_count, ih.1]
    · rcases Nat.eq_zero_or_pos N with h0 | hpos
      · subst h0; rfl
      · have hsz := ih.2 hpos
        have hct := ih.1
        rw [Vec.addN_succ, Vec.add_size, hct, hsz]
        split
        · rfl
        · rename_i hle
          exact (nextPow2_stable N (by omega)).symm

lemma addN_no_overflow (N : Nat) :
    ∀ v : Vec, v.count + N ≤ v.size →
      Vec.addN N v = ⟨v.count + N, v.size⟩ := by
  induction N with
  | zero => intro v _; simp [Vec.addN]
  | succ N ih =>
    intro v h
    have hN := ih v (by omega)
    rw [Vec.addN_succ, hN]
    have hlt : ¬ ((⟨v.count + N, v.size⟩ : Vec).size <
        (⟨v.count + N, v.size⟩ : Vec).count + 1) := by
      simp only []
      omega
    simp only [Vec.add]
    split
    · rename_i hcond; exact absurd hcond hlt
    · show (⟨(v.count + N) + 1, v.size⟩ : Vec) = ⟨v.count + (N + 1), v.size⟩
      rfl

/-! ## C5 -/

/-- C5 (amended): on a fresh container, after `N` sequential `add` calls
the count is `N`, and for `N ≥ 1` the capacity is `nextPow2 N`, which is a
power of two, is at least `N`, and is below every power of two that is at
least `N` (i.e. it is the smallest power of two ≥ N).  A fresh container
that has received no `add` keeps capacity 0 (the N = 0 case of the claim
fails, see the counterexample).  When an explicit `set_min_size` floor of
at least `nextPow2 N` was applied first, the capacity after the adds is
that floor.  `add` and `set_min_size` never decrease the capacity and
`reclaim` shrinks it to the count. -/
theorem C5_vector_growth (N : Nat) :
    (Vec.addN N Vec.fresh).count = N
    ∧ (1 ≤ N → (Vec.addN N Vec.fresh).size = nextPow2 N)
    ∧ N ≤ nextPow2 N
    ∧ (∃ k, nextPow2 N = 2 ^ k)
    ∧ (∀ m, N ≤ 2 ^ m → nextPow2 N ≤ 2 ^ m)
    ∧ (∀ F, nextPow2 N ≤ F →
        (Vec.addN N (Vec.fresh.set_min_size F)).count = N
        ∧ (Vec.addN N (Vec.fresh.set_min_size F)).size = F)
    ∧ (∀ v : Vec, v.size ≤ v.add.size)
    ∧ (∀ v : Vec, ∀ n, v.size ≤ (v.set_min_size n).size)
    ∧ (∀ v : Vec, v.reclaim.size = v.count) := by
  refine ⟨(addN_count_size N).1, (addN_count_size N).2, nextPow2_ge N,
    nextPow2_pow N, fun m hm => nextPow2_min N m hm, ?_, ?_, ?_, ?_⟩
  · intro F hF
    have hNF : N ≤ F := Nat.le_trans (nextPow2_ge N) hF
    have hfloor : Vec.fresh.set_min_size F = ⟨0, F⟩ := by
      rcases Nat.eq_zero_or_pos F with h0 | hpos
      · subst h0; rfl
      · simp [Vec.set_min_size, Vec.fresh, hpos]
    rw [hfloor]
    have := addN_no_overflow N ⟨0, F⟩ (by simpa using hNF)
    simp [this]
  · intro v
    rw [Vec.add_size]
    split
    · rename_i hlt
      have := nextPow2_ge (v.count + 1)
      omega
    · exact Nat.le_refl _
  · intro v n
    simp only [Vec.set_min_size]
    split
    · rename_i hlt
      show v.size ≤ n
      omega
    · exact Nat.le_refl _
  · intro v; rfl

/-- C5 counterexample: the claim quantifies over every `N ≥ 0`, but after
0 adds a fresh container's capacity is 0, while the smallest power of two
greater than or equal to 0 is `nextPow2 0 = 1`. -/
theorem C5_counterexample :
    (Vec.addN 0 Vec.fresh).size = 0 ∧ nextPow2 0 = 1 ∧ (0 : Nat) ≠ 1 := by
  exact ⟨rfl, rfl, by omega⟩

/-- C5 witness: at N = 3 the count is 3 and the capacity is
`nextPow2 3 = 4`; with a prior `set_min_size 8` floor the capacity is 8. -/
theorem C5_witness :
    (Vec.addN 3 Vec.fresh).count = 3
    ∧ (Vec.addN 3 Vec.fresh).size = nextPow2 3
    ∧ nextPow2 3 = 4
    ∧ (Vec.addN 3 (Vec.fresh.set_min_size 8)).size = 8 := by
  have h := C5_vector_growth 3
  exact ⟨h.1, h.2.1 (by omega), by decide,
    (h.2.2.2.2.2.1 8 (by decide)).2⟩

/-! ## Helper lemmas: the row scan -/

/-- `scanRows` returns the entity of the first matching row: if row `i` is
the first row whose name is `name`, the scan returns the entity at row `i`. -/
lemma scanRows_first (name : String) :
    ∀ (i : Nat) (ns : List String) (es : List EntityId) (e : EntityId),
      ns.get? i = some name →
      (∀ j, j < i → ∀ s, ns.get? j = some s → s ≠ name) →
      es.get? i = some e →
      scanRows ns es name = e := by
  intro i
  induction i with
  | zero =>
    intro ns es e hn hf he
    cases ns with
    | nil => simp at hn
    | cons n ns' =>
      cases es with
      | nil => simp at he
      | cons e0 es' =>
        simp only [List.get?] at hn he
        injection hn with hn
        injection he with he
        subst hn he
        simp [scanRows]
  | succ i ih =>
    intro ns es e hn hf he
    cases ns with
    | nil => simp at hn
    | cons n ns' =>
      cases es with
      | nil => simp at he
      | cons e0 es' =>
        simp only [List.get?] at hn he
        have h0 : n ≠ name := hf 0 (Nat.succ_pos i) n rfl
        simp only [scanRows, if_neg h0]
        exact ih ns' es' e hn (fun j hj s hs => hf (j + 1) (by omega) s hs) he

/-- When no row name matches, the scan returns the sentinel 0. -/
lemma scanRows_miss :
    ∀ (ns : List String) (es : List EntityId) (name : String),
      (∀ x ∈ ns, x ≠ name) → scanRows ns es name = 0 := by
  intro ns
  induction ns with
  | nil => intro es name _; rfl
  | cons n ns' ih =>
    intro es name h
    cases es with
    | nil => rfl
    | cons e0 es' =>
      have hn : n ≠ name := h n (by simp)
      simp only [scanRows, if_neg hn]
      exact ih es' name (fun x hx => h x (by simp [hx]))

/-! ## C1 -/

/-- C1: order of consultation in the staged lookup.  Within an indexed
table the active stage's data is consulted first and its hit is returned
unchanged (a); the canonical (world-stage) data is consulted only when the
overlay yields no match and the active stage is not the world stage (b);
when the indexed tier over `child_tables[parent]` produces a hit, that hit
is the result and the staged tables are never consulted (c); the
exhaustive staged scan is the result exactly when the whole indexed tier
misses and the active stage is not the world stage (d); and under the
world stage the result is the indexed tier alone, whatever the stage list
of any stage may contain (e). -/
theorem C1_staged_lookup_order (w : World) (st : Stage) (parent : EntityId)
    (name : String) (t : Table) (ni : Nat) :
    (find_child_in_table st.id t ni name ≠ 0 →
      lookup_in_table st.id t ni name = find_child_in_table st.id t ni name)
    ∧ (find_child_in_table st.id t ni name = 0 → st.id ≠ 0 →
      lookup_in_table st.id t ni name = find_child_in_table 0 t ni name)
    ∧ (∀ tables, w.childTablesOf parent = some tables →
        lookup_child_tables_loop st.id name tables ≠ 0 →
        ecs_lookup_child w st parent name =
          lookup_child_tables_loop st.id name tables)
    ∧ (∀ tables, w.childTablesOf parent = some tables →
        lookup_child_tables_loop st.id name tables = 0 → st.id ≠ 0 →
        ecs_lookup_child w st parent name = find_child_in_staged st parent name)
    ∧ (st.id = 0 →
        ecs_lookup_child w st parent name =
          match w.childTablesOf parent with
          | none => 0
          | some tables => lookup_child_tables_loop 0 name tables) := by
  refine ⟨?_, ?_, ?_, ?_, ?_⟩
  · intro h
    simp [lookup_in_table, h]
  · intro h hst
    simp [lookup_in_table, h, hst]
  · intro tables htab hne
    simp [ecs_lookup_child, htab, hne]
  · intro tables htab hz hst
    simp [ecs_lookup_child, htab, hz, hst]
  · intro hst
    cases htab : w.childTablesOf parent with
    | none => simp [ecs_lookup_child, htab, hst]
    | some tables => simp [ecs_lookup_child, htab, hst]

/-- C1 witness: in the rename world, stage 1's overlay hit "new" is
returned as is (a); the overlay misses "old" so the canonical data answers
(b); an indexed-tier hit is the lookup result (c); in a stage with a
staged-only table, an indexed-tier miss falls back to the staged scan (d);
and under the world stage the result is the indexed tier alone (e). -/
theorem C1_witness :
    (lookup_in_table 1 renameTable 0 "new" =
      find_child_in_table 1 renameTable 0 "new")
    ∧ (lookup_in_table 1 renameTable 0 "old" =
      find_child_in_table 0 renameTable 0 "old")
    ∧ (ecs_lookup_child renameW renameStage 1 "old" =
      lookup_child_tables_loop 1 "old" [renameTable])
    ∧ (ecs_lookup_child renameW stagedStage 1 "ghost" =
      find_child_in_staged stagedStage 1 "ghost")
    ∧ (ecs_lookup_child dupW worldStage 1 "kid" =
      lookup_child_tables_loop 0 "kid" [dupTable]) := by
  refine ⟨?_, ?_, ?_, ?_, ?_⟩
  · exact (C1_staged_lookup_order renameW renameStage 1 "new" renameTable 0).1
      (by decide)
  · exact (C1_staged_lookup_order renameW renameStage 1 "old" renameTable 0).2.1
      (by decide) (by decide)
  · exact (C1_staged_lookup_order renameW renameStage 1 "old" renameTable 0).2.2.1
      [renameTable] (by decide) (by decide)
  · exact (C1_staged_lookup_order renameW stagedStage 1 "ghost" renameTable 0).2.2.2.1
      [renameTable] (by decide) (by decide) (by decide)
  · have h := (C1_staged_lookup_order dupW worldStage 1 "kid" dupTable 0).2.2.2.2
      (by decide)
    simpa [World.childTablesOf, dupW] using h

/-! ## C7 -/

/-- C7: duplicate sibling names are answered by the first match in scan
order, and lookup is a total function with no error outcome.  Part (a):
the row scan returns the entity of the first matching row in container
order.  Parts (b)-(d): in the indexed tier, a table with a per-table hit
that comes first in index order decides the result, a per-table miss or a
table without a Name column passes to the next table.  Parts (e)-(g): the
same first-hit discipline for the stage-local scan of the fallback tier. -/
theorem C7_duplicates_first_match (st : Stage) (name : String) (t : Table)
    (ts : List Table) :
    (∀ (i : Nat) (ns : List String) (es : List EntityId) (e : EntityId),
      ns.get? i = some name →
      (∀ j, j < i → ∀ s, ns.get? j = some s → s ≠ name) →
      es.get? i = some e →
      scanRows ns es name = e)
    ∧ (∀ ni e, ecs_type_index_of t.type EcsNameComp = some ni →
        lookup_in_table st.id t ni name = e → e ≠ 0 →
        lookup_child_tables_loop st.id name (t :: ts) = e)
    ∧ (∀ ni, ecs_type_index_of t.type EcsNameComp = some ni →
        lookup_in_table st.id t ni name = 0 →
        lookup_child_tables_loop st.id name (t :: ts) =
          lookup_child_tables_loop st.id name ts)
    ∧ (ecs_type_index_of t.type EcsNameComp = none →
        lookup_child_tables_loop st.id name (t :: ts) =
          lookup_child_tables_loop st.id name ts)
    ∧ (∀ ni e, ecs_type_index_of t.type EcsNameComp = some ni →
        find_child_in_table st.id t ni name = e → e ≠ 0 →
        find_child_in_staged_list st.id name (t :: ts) = e)
    ∧ (∀ ni, ecs_type_index_of t.type EcsNameComp = some ni →
        find_child_in_table st.id t ni name = 0 →
        find_child_in_staged_list st.id name (t :: ts) =
          find_child_in_staged_list st.id name ts)
    ∧ (ecs_type_index_of t.type EcsNameComp = none →
        find_child_in_staged_list st.id name (t :: ts) =
          find_child_in_staged_list st.id name ts) := by
  refine ⟨scanRows_first name, ?_, ?_, ?_, ?_, ?_, ?_⟩
  · intro ni e hni he hne
    subst he
    simp [lookup_child_tables_loop, hni, hne]
  · intro ni hni hz
    simp [lookup_child_tables_loop, hni, hz]
  · intro hni
    simp [lookup_child_tables_loop, hni]
  · intro ni e hni he hne
    subst he
    simp [find_child_in_staged_list, hni, hne]
  · intro ni hni hz
    simp [find_child_in_staged_list, hni, hz]
  · intro hni
    simp [find_child_in_staged_list, hni]

/-- C7 witness: in the duplicate world both rows of the table are named
"kid"; the scan returns entity 2, the entity of the first matching row,
and the indexed tier returns that per-table hit. -/
theorem C7_witness :
    scanRows ["kid", "kid"] [2, 3] "kid" = 2
    ∧ lookup_child_tables_loop 0 "kid" [dupTable] = 2 := by
  refine ⟨?_, ?_⟩
  · exact (C7_duplicates_first_match worldStage "kid" dupTable []).1
      0 ["kid", "kid"] [2, 3] 2 (by decide) (by omega) (by decide)
  · exact (C7_duplicates_first_match worldStage "kid" dupTable []).2.1
      0 2 (by decide) (by decide) (by decide)

/-! ## C6 -/

/-- C6: staging isolation as a two-run statement.  Take a table `t` under
`parent` whose canonical data names the child `e` at row `i` `oldN` (first
occurrence) and whose overlay for stage `st` is the same row set with row
`i` renamed to `newN` (a name no canonical row carries).  Then the lookup
run in the stage's context returns `e` for the new name, while the run
under the world stage still returns `e` for the old name and does not know
the new name at all. -/
theorem C6_staging_isolation (w : World) (st st0 : Stage) (parent e : EntityId)
    (t : Table) (cs : List String) (es : List EntityId) (i : Nat)
    (oldN newN : String)
    (hst : st.id ≠ 0) (hst0 : st0.id = 0)
    (ht : t.type = [EcsNameComp])
    (hw : w.childTablesOf parent = some [t])
    (hc : ecs_table_get_staged_data 0 t = some ⟨es, some [⟨cs⟩]⟩)
    (ho : ecs_table_get_staged_data st.id t =
      some ⟨es, some [⟨cs.set i newN⟩]⟩)
    (hold : cs.get? i = some oldN)
    (hfirst : ∀ j, j < i → ∀ s, cs.get? j = some s → s ≠ oldN)
    (hnew : ∀ x ∈ cs, x ≠ newN)
    (he : es.get? i = some e)
    (hez : e ≠ 0) :
    ecs_lookup_child w st parent newN = e
    ∧ ecs_lookup_child w st0 parent oldN = e
    ∧ ecs_lookup_child w st0 parent newN = 0 := by
  have hlen : es.length ≠ 0 := by
    obtain ⟨hlt, -⟩ := List.get?_eq_some.mp he
    omega
  have hni : ecs_type_index_of t.type EcsNameComp = some 0 := by
    rw [ht]; rfl
  have hio : i < cs.length := by
    obtain ⟨hlt, -⟩ := List.get?_eq_some.mp hold
    exact hlt
  refine ⟨?_, ?_, ?_⟩
  · -- staged run sees the new name through the overlay
    have hset : (cs.set i newN).get? i = some newN := by
      rw [List.get?_set_eq]
      rw [List.get?_eq_some.mpr ⟨hio, rfl⟩]
      rfl
    have hscan : scanRows (cs.set i newN) es newN = e := by
      apply scanRows_first newN i _ _ e hset _ he
      intro j hj s hs
      rw [List.get?_set_ne _ _ (by omega)] at hs
      have hmem : s ∈ cs := List.mem_iff_get?.mpr ⟨j, hs⟩
      exact hnew s hmem
    have hfind : find_child_in_table st.id t 0 newN = e := by
      simp [find_child_in_table, ho, hlen, hscan]
    simp [ecs_lookup_child, hw, lookup_child_tables_loop, hni,
      lookup_in_table, hfind, hez]
  · -- world-stage run still sees the old name in the canonical data
    have hscan : scanRows cs es oldN = e :=
      scanRows_first oldN i cs es e hold hfirst he
    have hfind : find_child_in_table 0 t 0 oldN = e := by
      simp [find_child_in_table, hc, hlen, hscan]
    simp [ecs_lookup_child, hw, lookup_child_tables_loop, hni,
      lookup_in_table, hst0, hfind, hez]
  · -- world-stage run does not know the new name
    have hscan : scanRows cs es newN = 0 := scanRows_miss cs es newN hnew
    have hfind : find_child_in_table 0 t 0 newN = 0 := by
      simp [find_child_in_table, hc, hlen, hscan]
    simp [ecs_lookup_child, hw, lookup_child_tables_loop, hni,
      lookup_in_table, hst0, hfind]

/-- C6 witness: the rename world (canonical name "old", stage-1 overlay
name "new" for child 2 of parent 1). -/
theorem C6_witness :
    ecs_lookup_child renameW renameStage 1 "new" = 2
    ∧ ecs_lookup_child renameW worldStage 1 "old" = 2
    ∧ ecs_lookup_child renameW worldStage 1 "new" = 0 := by
  have h := C6_staging_isolation renameW renameStage worldStage 1 2
    renameTable ["old"] [2] 0 "old" "new"
    (by decide) (by decide) (by decide) (by decide) (by decide)
    (by decide) (by decide) (by omega) (by decide) (by decide) (by decide)
  exact h

lemma splitFirstLive_none :
    ∀ suffix, splitFirstLive suffix = none → ∀ x ∈ suffix, isLive x = false := by
  intro suffix
  induction suffix with
  | nil => intro _ x hx; simp at hx
  | cons t rest ih =>
    intro h x hx
    simp only [splitFirstLive] at h
    split at h
    · exact absurd h (by simp)
    · rename_i hlv
      rcases List.mem_cons.mp hx with h0 | h0
      · subst h0; simpa using hlv
      · revert h
        cases hr : splitFirstLive rest with
        | some s => intro h; simp at h
        | none => intro _; exact ih hr x h0

lemma splitFirstLive_some :
    ∀ suffix s, splitFirstLive suffix = some s →
      suffix = s.pre ++ s.tab :: s.post ∧ isLive s.tab = true ∧
        ∀ x ∈ s.pre, isLive x = false := by
  intro suffix
  induction suffix with
  | nil => intro s h; simp [splitFirstLive] at h
  | cons u rest ih =>
    intro s h
    simp only [splitFirstLive] at h
    split at h
    · rename_i hlv
      injection h with h
      subst h
      exact ⟨rfl, hlv, by simp⟩
    · rename_i hlv
      revert h
      cases hr : splitFirstLive rest with
      | none => intro h; simp at h
      | some s' =>
        intro h
        injection h with h
        subst h
        obtain ⟨ih1, ih2, ih3⟩ := ih s' hr
        refine ⟨by rw [List.cons_append, ← ih1], ih2, ?_⟩
        intro x hx
        rcases List.mem_cons.mp hx with h0 | h0
        · subst h0; simpa using hlv
        · exact ih3 x h0

/-- Full characterization of `ecs_tree_next`'s loop over the suffix of the
table list starting at absolute index `i`: when the suffix holds no live
table the loop reports false and leaves the view unchanged except that the
row count is zeroed when a (zero-row) data-bearing table was scanned; when
a first live table exists the loop yields its batch and advances the index
just past it. -/
lemma tree_next_loop_eq :
    ∀ (suffix : List Table) (v : View) (i : Nat),
      tree_next_loop v suffix i =
        match splitFirstLive suffix with
        | none =>
          (if suffix.any hasData then { v with count := 0 } else v, false)
        | some s =>
          ({ iter := { tables := v.iter.tables, index := i + s.pre.length + 1 },
             table := some s.tab, count := ecs_table_count s.tab,
             entities := (canonData s.tab).entities,
             table_columns := (canonData s.tab).columns }, true) := by
  intro suffix
  induction suffix with
  | nil => intro v i; rfl
  | cons t rest ih =>
    intro v i
    simp only [tree_next_loop]
    cases hd : t.stage_data.head? with
    | none =>
      have hhd : hasData t = false := by simp [hasData, hd]
      have hlv : isLive t = false := by simp [isLive, hhd]
      rw [ih v (i + 1)]
      simp only [splitFirstLive, hlv, Bool.false_eq_true, if_false]
      cases hr : splitFirstLive rest with
      | none => simp [List.any_cons, hhd]
      | some s =>
        simp only [List.length_cons]
        have harith : i + 1 + s.pre.length + 1 = i + (s.pre.length + 1) + 1 := by
          omega
        rw [harith]
    | some data =>
      have hhd : hasData t = true := by simp [hasData, hd]
      by_cases hz : ecs_table_count t = 0
      · have hlv : isLive t = false := by simp [isLive, hz]
        simp only [hz, if_pos rfl]
        rw [ih _ (i + 1)]
        simp only [splitFirstLive, hlv, Bool.false_eq_true, if_false]
        cases hr : splitFirstLive rest with
        | none => simp [List.any_cons, hhd, hz]
        | some s =>
          simp only [List.length_cons]
          have harith : i + 1 + s.pre.length + 1 = i + (s.pre.length + 1) + 1 := by
            omega
          rw [harith]
          simp
      · have hlv : isLive t = true := by simp [isLive, hhd, hz]
        simp only [if_neg hz]
        simp only [splitFirstLive, if_pos hlv]
        have hcd : canonData t = data := by simp [canonData, hd]
        simp [hcd]

/-- Draining the iterator yields exactly the live tables of the captured
list, in order, each as its batch. -/
lemma collectBatches_spec :
    ∀ (fuel : Nat) (suffix : List Table) (v : View) (i : Nat),
      v.iter.index = i → v.iter.tables.drop i = suffix →
      suffix.length ≤ fuel →
      collectBatches fuel v = (suffix.filter isLive).map tableBatch := by
  intro fuel
  induction fuel with
  | zero =>
    intro suffix v i _ _ h3
    have hnil : suffix = [] := List.eq_nil_of_length_eq_zero (by omega)
    subst hnil
    rfl
  | succ f ih =>
    intro suffix v i h1 h2 h3
    have hnext : ecs_tree_next v = tree_next_loop v suffix i := by
      rw [ecs_tree_next, h1, h2]
    simp only [collectBatches, hnext, tree_next_loop_eq]
    cases hs : splitFirstLive suffix with
    | none =>
      have hfil : suffix.filter isLive = [] :=
        List.filter_eq_nil.mpr
          (fun x hx => by simp [splitFirstLive_none suffix hs x hx])
      rw [hfil]
      rfl
    | some s =>
      obtain ⟨hsuf, hlv, hpre⟩ := splitFirstLive_some suffix s hs
      have hfil : suffix.filter isLive = s.tab :: s.post.filter isLive := by
        rw [hsuf, List.filter_append]
        have : s.pre.filter isLive = [] :=
          List.filter_eq_nil.mpr (fun x hx => by simp [hpre x hx])
        rw [this]
        simp [hlv]
      rw [hfil]
      simp only [List.map_cons]
      have hrec := ih s.post
        ({ iter := { tables := v.iter.tables, index := i + s.pre.length + 1 },
           table := some s.tab, count := ecs_table_count s.tab,
           entities := (canonData s.tab).entities,
           table_columns := (canonData s.tab).columns } : View)
        (i + s.pre.length + 1) rfl
        (by
          show v.iter.tables.drop (i + s.pre.length + 1) = s.post
          have hd1 : v.iter.tables.drop (i + s.pre.length + 1) =
              (v.iter.tables.drop i).drop (s.pre.length + 1) := by
            rw [List.drop_drop]
            congr 1
          rw [hd1, h2, hsuf]
          have : s.pre ++ s.tab :: s.post = (s.pre ++ [s.tab]) ++ s.post := by
            simp
          rw [this]
          have hlen : s.pre.length + 1 = (s.pre ++ [s.tab]).length := by
            simp
          rw [hlen, List.drop_left])
        (by
          have : suffix.length = s.pre.length + s.post.length + 1 := by
            rw [hsuf]; simp; omega
          omega)
      rw [hrec]
      rfl

/-- Once `ecs_tree_next` has reported false, calling it again on the
returned view reports false again and returns the identical view: no side
effects past exhaustion. -/
lemma tree_next_stable (v v' : View) (h : ecs_tree_next v = (v', false)) :
    ecs_tree_next v' = (v', false) := by
  rw [ecs_tree_next, tree_next_loop_eq] at h
  revert h
  cases hs : splitFirstLive (v.iter.tables.drop v.iter.index) with
  | some s => intro h; exact absurd (congrArg Prod.snd h) (by simp)
  | none =>
    intro h
    have hv' : v' = if (v.iter.tables.drop v.iter.index).any hasData then
        { v with count := 0 } else v := (congrArg Prod.fst h).symm
    have hiter : v'.iter = v.iter := by
      rw [hv']; split <;> rfl
    rw [ecs_tree_next, tree_next_loop_eq, hiter, hs]
    by_cases ha : (v.iter.tables.drop v.iter.index).any hasData
    · simp only [ha, if_pos, if_true]
      rw [hv']
      simp [ha]
    · simp only [ha, if_false]
      rw [hv']
      simp [ha]

/-! ## C8 -/

/-- C8: draining the tree iterator with enough fuel yields exactly one
batch per table of `child_tables[parent]` (the committed hierarchy index —
staged-only tables are not in it) that has canonical data and at least one
live row, in index order; each batch carries the table, its row count, its
entity-id array and its column pointers (`tableBatch`); and a view on
which `ecs_tree_next` reported false reproduces itself: every further call
returns false with no side effects. -/
theorem C8_tree_iterator (w : World) (parent : EntityId) :
    (∀ fuel, ((w.childTablesOf parent).getD []).length ≤ fuel →
      collectBatches fuel (ecs_tree_iter w parent) =
        (((w.childTablesOf parent).getD []).filter isLive).map tableBatch)
    ∧ (∀ v v' : View, ecs_tree_next v = (v', false) →
        ecs_tree_next v' = (v', false)) := by
  constructor
  · intro fuel hf
    exact collectBatches_spec fuel ((w.childTablesOf parent).getD [])
      (ecs_tree_iter w parent) 0 rfl (List.drop_zero _) hf
  · exact tree_next_stable

/-- C8 witness: the duplicate world's single live table is yielded as the
single batch, and the exhausted view is a fixed point of `ecs_tree_next`. -/
theorem C8_witness :
    collectBatches 1 (ecs_tree_iter dupW 1) =
      (((dupW.childTablesOf 1).getD []).filter isLive).map tableBatch
    ∧ (((dupW.childTablesOf 1).getD []).filter isLive).map tableBatch =
      [tableBatch dupTable]
    ∧ ecs_tree_next pastDupView = (pastDupView, false) := by
  refine ⟨(C8_tree_iterator dupW 1).1 1 (by decide), by decide,
    (C8_tree_iterator dupW 1).2 pastDupView pastDupView (by decide)⟩

/-! ## Helper lemmas: the path resolver as chained segment resolution -/

lemma splitOnChar_ne_nil (c : Char) : ∀ l, splitOnChar c l ≠ [] := by
  intro l
  cases l with
  | nil => simp [splitOnChar]
  | cons ch rest =>
    simp only [splitOnChar]
    split
    · simp
    · rcases h : splitOnChar c rest with _ | ⟨s, ss⟩ <;> simp

/-- The character loop of `ecs_lookup_path_w_sep`, run with a
single-character separator and enough fuel, computes the chained
resolution of the split segments (with the pending buffer prepended to the
first segment). -/
lemma lookup_path_loop_resolve (w : World) (st : Stage) (c : Char) :
    ∀ (rest : List Char) (fuel : Nat) (cur : EntityId) (buff : List Char),
      rest.length ≤ fuel →
      lookup_path_loop w st [c] fuel cur buff rest =
        resolveSegs w st cur (consHead buff (splitOnChar c rest)) := by
  intro rest
  induction rest with
  | nil =>
    intro fuel cur buff _
    cases fuel with
    | zero =>
      cases buff with
      | nil => simp [lookup_path_loop, splitOnChar, consHead, resolveSegs]
      | cons b bs => simp [lookup_path_loop, splitOnChar, consHead, resolveSegs]
    | succ f =>
      cases buff with
      | nil => simp [lookup_path_loop, splitOnChar, consHead, resolveSegs]
      | cons b bs => simp [lookup_path_loop, splitOnChar, consHead, resolveSegs]
  | cons ch rest ih =>
    intro fuel cur buff hf
    cases fuel with
    | zero => simp only [List.length_cons] at hf; omega
    | succ f =>
      simp only [List.length_cons] at hf
      simp only [lookup_path_loop]
      by_cases hch : c = ch
      · have hsep : (([c] : List Char) ≠ [] ∧
            strncmpEq [c] (ch :: rest) = true) := by
          subst hch
          exact ⟨by simp, by simp [strncmpEq]⟩
        rw [if_pos hsep]
        have hdrop : List.drop ([c] : List Char).length (ch :: rest) = rest := by
          simp
        rw [hdrop]
        rcases hss : splitOnChar c rest with _ | ⟨s, ss⟩
        · exact absurd hss (splitOnChar_ne_nil c rest)
        · have hsplit : splitOnChar c (ch :: rest) = [] :: s :: ss := by
            simp [splitOnChar, hch.symm, hss]
          rw [hsplit]
          show _ = resolveSegs w st cur (consHead buff ([] :: s :: ss))
          simp only [consHead, List.append_nil]
          simp only [resolveSegs]
          by_cases hz : ecs_lookup_child w st cur (String.mk buff) = 0
          · simp [hz]
          · simp only [hz, if_neg hz]
            have := ih f (ecs_lookup_child w st cur (String.mk buff)) []
              (by omega)
            rw [hss] at this
            simpa [consHead] using this
      · have hsep : ¬ (([c] : List Char) ≠ [] ∧
            strncmpEq [c] (ch :: rest) = true) := by
          intro hcon
          have := hcon.2
          simp [strncmpEq, hch] at this
        rw [if_neg hsep]
        rw [ih f cur (buff ++ [ch]) (by simp at hf ⊢; omega)]
        rcases hss : splitOnChar c rest with _ | ⟨s, ss⟩
        · exact absurd hss (splitOnChar_ne_nil c rest)
        · have hch2 : ¬ ch = c := fun h => hch h.symm
          have hsplit : splitOnChar c (ch :: rest) = (ch :: s) :: ss := by
            simp [splitOnChar, hch2, hss]
          rw [hsplit]
          have hap : (buff ++ [ch]) ++ s = buff ++ ch :: s := by simp
          simp only [consHead, hap]

/-- `ecs_lookup_path_w_sep` with a single-character separator and no
prefix equals the spec-side chained resolution of the split segments. -/
lemma lookup_path_resolve (w : World) (st : Stage) (parent : EntityId)
    (path : String) (c : Char) :
    ecs_lookup_path_w_sep w st parent path (String.mk [c]) none =
      resolveSegs w st parent (splitOnChar c path.toList) := by
  show lookup_path_loop w st [c] path.toList.length parent [] path.toList = _
  rw [lookup_path_loop_resolve w st c path.toList path.toList.length parent []
    (Nat.le_refl _)]
  rcases hss : splitOnChar c path.toList with _ | ⟨s, ss⟩
  · exact absurd hss (splitOnChar_ne_nil c _)
  · simp [consHead]

lemma splitOnChar_no_sep (c : Char) :
    ∀ l, (∀ x ∈ l, x ≠ c) → splitOnChar c l = [l] := by
  intro l
  induction l with
  | nil => intro _; rfl
  | cons ch rest ih =>
    intro h
    have hch : ¬ (ch = c) := h ch (by simp)
    simp only [splitOnChar, if_neg hch]
    rw [ih (fun x hx => h x (by simp [hx]))]

/-! ## C3 -/

/-- C3: `ecs_lookup_path_w_sep` (single-character separator, no prefix)
equals the chained segment resolution `resolveSegs`, which looks every
segment up with `ecs_lookup_child` against the running current entity,
returns the sentinel 0 as soon as a non-final segment resolves to 0 (so a
partially resolved entity is never returned), and treats the text after
the last separator as one final implicit segment; a path with no separator
occurrence splits into exactly one such segment. -/
theorem C3_segment_abort (w : World) (st : Stage) (parent : EntityId)
    (path : String) (c : Char) :
    ecs_lookup_path_w_sep w st parent path (String.mk [c]) none =
      resolveSegs w st parent (splitOnChar c path.toList)
    ∧ ((∀ x ∈ path.toList, x ≠ c) → splitOnChar c path.toList = [path.toList]) :=
  ⟨lookup_path_resolve w st parent path c, splitOnChar_no_sep c path.toList⟩

/-- C3 witness: in the two-level world, resolving "a.x" aborts with 0 (the
"x" segment is missing under entity 2), matching the chained resolution,
and a separator-free path is a single segment. -/
theorem C3_witness :
    ecs_lookup_path_w_sep twoLevelW worldStage 1 "a.x" (String.mk ['.']) none =
      resolveSegs twoLevelW worldStage 1 (splitOnChar '.' "a.x".toList)
    ∧ splitOnChar '.' "ab".toList = ["ab".toList] :=
  ⟨(C3_segment_abort twoLevelW worldStage 1 "a.x" '.').1,
   (C3_segment_abort twoLevelW worldStage 1 "ab" '.').2 (by decide)⟩

/-! ## Helper lemmas: trailing separators -/

lemma splitOnChar_append_sep (c : Char) :
    ∀ l, splitOnChar c (l ++ [c]) = splitOnChar c l ++ [[]] := by
  intro l
  induction l with
  | nil => simp [splitOnChar]
  | cons ch rest ih =>
    have hcons : (ch :: rest) ++ [c] = ch :: (rest ++ [c]) := rfl
    rw [hcons]
    by_cases hch : ch = c
    · simp only [splitOnChar, if_pos hch, ih]
      rfl
    · simp only [splitOnChar, if_neg hch]
      rw [ih]
      rcases h : splitOnChar c rest with _ | ⟨s, ss⟩
      · exact absurd h (splitOnChar_ne_nil c rest)
      · simp

lemma resolveSegs_trailing (w : World) (st : Stage) :
    ∀ (ss : List (List Char)) (s : List Char) (cur : EntityId), s ≠ [] →
      resolveSegs w st cur ((ss ++ [s]) ++ [[]]) =
        resolveSegs w st cur (ss ++ [s]) := by
  intro ss
  induction ss with
  | nil =>
    intro s cur hs
    simp only [List.nil_append]
    show resolveSegs w st cur [s, []] = resolveSegs w st cur [s]
    have hse : s.isEmpty = false := by
      cases s with
      | nil => exact absurd rfl hs
      | cons a tl => rfl
    simp only [resolveSegs, hse, Bool.false_eq_true, if_false,
      List.isEmpty_nil, if_true]
    by_cases hz : ecs_lookup_child w st cur (String.mk s) = 0
    · simp [hz]
    · simp [hz]
  | cons s0 ss ih =>
    intro s cur hs
    rcases hd : ss ++ [s] with _ | ⟨a, tl⟩
    · cases ss <;> simp at hd
    · simp only [List.cons_append, hd]
      simp only [resolveSegs]
      by_cases hz : ecs_lookup_child w st cur (String.mk s0) = 0
      · simp [hz]
      · simp only [hz, if_neg hz]
        have := ih s (ecs_lookup_child w st cur (String.mk s0)) hs
        rw [hd] at this
        simpa using this

lemma splitOnChar_last_ne_nil (c : Char) :
    ∀ l, l ≠ [] → l.getLast? ≠ some c →
      ∃ ss s, splitOnChar c l = ss ++ [s] ∧ s ≠ [] := by
  intro l
  induction l with
  | nil => intro h _; exact absurd rfl h
  | cons x tl ih =>
    intro _ hlast
    cases tl with
    | nil =>
      have hx : ¬ (x = c) := by
        intro he
        exact hlast (by simp [he])
      refine ⟨[], [x], ?_, by simp⟩
      simp [splitOnChar, hx]
    | cons y tl' =>
      have hlast' : (y :: tl').getLast? ≠ some c := by
        simpa [List.getLast?_cons_cons] using hlast
      obtain ⟨ss, s, hsplit, hs⟩ := ih (by simp) hlast'
      have h1 : splitOnChar c (x :: y :: tl') =
          if x = c then [] :: splitOnChar c (y :: tl')
          else
            match splitOnChar c (y :: tl') with
            | s0 :: ss0 => (x :: s0) :: ss0
            | [] => [[x]] := rfl
      by_cases hx : x = c
      · refine ⟨[] :: ss, s, ?_, hs⟩
        rw [h1, if_pos hx, hsplit]
        rfl
      · rcases hss : ss with _ | ⟨s0, ss'⟩
        · subst hss
          refine ⟨[], x :: s, ?_, by simp⟩
          rw [List.nil_append] at hsplit
          rw [h1, if_neg hx, hsplit]
          rfl
        · subst hss
          refine ⟨(x :: s0) :: ss', s, ?_, hs⟩
          rw [h1, if_neg hx, hsplit]
          rfl

/-! ## C10 -/

/-- C10: a path built as a separator-free-ending path `q` plus exactly one
trailing separator resolves to the same entity as `q` itself: the empty
final segment after the trailing separator is never looked up. -/
theorem C10_trailing_separator (w : World) (st : Stage) (parent : EntityId)
    (q : String) (c : Char)
    (hq : q.toList ≠ []) (hlast : q.toList.getLast? ≠ some c) :
    ecs_lookup_path_w_sep w st parent (q.push c) (String.mk [c]) none =
      ecs_lookup_path_w_sep w st parent q (String.mk [c]) none := by
  rw [lookup_path_resolve, lookup_path_resolve]
  have hp : (q.push c).toList = q.toList ++ [c] := by
    simp [String.push, String.toList]
  rw [hp, splitOnChar_append_sep]
  obtain ⟨ss, s, hsplit, hs⟩ := splitOnChar_last_ne_nil c q.toList hq hlast
  rw [hsplit]
  exact resolveSegs_trailing w st ss s parent hs

/-- C10 witness: "a." resolves to the same entity as "a" in the two-level
world. -/
theorem C10_witness :
    ecs_lookup_path_w_sep twoLevelW worldStage 1 ("a".push '.')
      (String.mk ['.']) none =
    ecs_lookup_path_w_sep twoLevelW worldStage 1 "a" (String.mk ['.']) none :=
  C10_trailing_separator twoLevelW worldStage 1 "a" '.' (by decide) (by decide)

/-- C4: a top-level `ecs_lookup` of a name whose first character is a
decimal digit converts the name with `atoi` and returns that id, for every
world and stage (so no hierarchy data is consulted and no entity's Name can
change the result); in particular looking up "42" returns entity id 42. -/
theorem C4_digit_shortcut (w : World) (st : Stage) (s : String)
    (h : (s.toList.headD 'x').isDigit = true) :
    ecs_lookup w st (some s) = atoi s
    ∧ ecs_lookup w st (some "42") = 42 := by
  constructor
  · cases hs : s.toList with
    | nil => rw [hs] at h; simp at h
    | cons c rest =>
      rw [hs] at h
      simp only [List.headD] at h
      have hs' : s.data = c :: rest := hs
      simp [ecs_lookup, hs', h]
  · rfl

/-- C4 witness at the concrete duplicate-name world and the name "42". -/
theorem C4_witness :
    ecs_lookup dupW worldStage (some "42") = atoi "42"
    ∧ ecs_lookup dupW worldStage (some "42") = 42 :=
  C4_digit_shortcut dupW worldStage "42" (by decide)

/-! ## Helper lemmas: ChildOf chains and path construction -/

lemma joinSep_concat (sep : String) :
    ∀ (xs : List String) (x : String), xs ≠ [] →
      joinSep sep (xs ++ [x]) = joinSep sep xs ++ sep ++ x := by
  intro xs
  induction xs with
  | nil => intro x h; exact absurd rfl h
  | cons a tl ih =>
    intro x _
    cases tl with
    | nil => rfl
    | cons b tl' =>
      show a ++ sep ++ joinSep sep ((b :: tl') ++ [x]) =
        (a ++ sep ++ joinSep sep (b :: tl')) ++ sep ++ x
      rw [ih x (by simp)]
      simp only [String.append_assoc]

/-- `path_append` along a ChildOf chain: starting from `e`, whose upward
chain through `u` ends at `T` (which is the `parent` argument `P`, or the
hierarchy root 0), the written text is the chain's names root-most first,
joined by the separator, prefixed by the prefix string exactly when the
walk ended at the hierarchy root. -/
lemma path_append_chain (w : World) (pfx : Option String) (sep : String)
    (P T : EntityId) :
    ∀ (u : List EntityId) (e : EntityId) (fuel : Nat),
      (T = P ∨ T = 0) →
      ancChain w T (e :: u) →
      (∀ x ∈ u, x ≠ 0 ∧ x ≠ P) →
      u.length < fuel →
      path_append w pfx sep P fuel e =
        (if T = 0 then pfx.getD "" else "") ++
          joinSep sep ((e :: u).reverse.map w.nameOf) := by
  intro u
  induction u with
  | nil =>
    intro e fuel hT hch _ hfuel
    cases fuel with
    | zero => omega
    | succ f =>
      have hpar : w.parentOf e = T := hch
      have hunfold : path_append w pfx sep P (f + 1) e =
          (if T ≠ 0 then
            (if T ≠ P then path_append w pfx sep P f T ++ sep else "")
          else
            match pfx with
            | some p => p
            | none => "") ++ w.nameOf e := by
        simp only [path_append, hpar]
      rw [hunfold]
      by_cases h0 : T = 0
      · rw [if_neg (by simpa using h0), if_pos h0]
        cases pfx with
        | none => simp [joinSep]
        | some p => simp [joinSep]
      · have hTP : T = P := by tauto
        rw [if_pos h0, if_neg (by simp [hTP]), if_neg h0]
        simp [joinSep]
  | cons e' u' ih =>
    intro e fuel hT hch hmid hfuel
    cases fuel with
    | zero => simp only [List.length_cons] at hfuel; omega
    | succ f =>
      obtain ⟨hpar, hch'⟩ := hch
      have he' := hmid e' (by simp)
      simp only [path_append, hpar]
      rw [if_pos he'.1, if_pos he'.2]
      rw [ih e' f hT hch' (fun x hx => hmid x (by simp [hx]))
        (by simp only [List.length_cons] at hfuel; omega)]
      rw [show (e :: e' :: u').reverse = (e' :: u').reverse ++ [e] from
        List.reverse_cons e (e' :: u')]
      rw [List.map_append]
      simp only [List.map_cons, List.map_nil]
      rw [joinSep_concat sep ((e' :: u').reverse.map w.nameOf) (w.nameOf e)
        (by simp)]
      simp only [String.append_assoc]

/-- Splitting a text of the form `block ++ sep ++ rest`, with the block
free of the separator character, peels the block off as the first
segment. -/
lemma splitOnChar_sep_block (c : Char) :
    ∀ (l1 l2 : List Char), (∀ x ∈ l1, x ≠ c) →
      splitOnChar c (l1 ++ c :: l2) = l1 :: splitOnChar c l2 := by
  intro l1
  induction l1 with
  | nil =>
    intro l2 _
    show splitOnChar c (c :: l2) = [] :: splitOnChar c l2
    simp [splitOnChar]
  | cons x tl ih =>
    intro l2 hfree
    have hx : ¬ (x = c) := hfree x (by simp)
    have h1 : splitOnChar c ((x :: tl) ++ c :: l2) =
        match splitOnChar c (tl ++ c :: l2) with
        | s0 :: ss0 => (x :: s0) :: ss0
        | [] => [[x]] := by
      show splitOnChar c (x :: (tl ++ c :: l2)) = _
      simp only [splitOnChar, if_neg hx]
    rw [h1, ih l2 (fun y hy => hfree y (by simp [hy]))]

/-- Splitting the separator-joined names recovers the name list, provided
no name contains the separator character. -/
lemma splitOnChar_joinSep (c : Char) :
    ∀ (names : List String), names ≠ [] →
      (∀ n ∈ names, ∀ ch ∈ n.toList, ch ≠ c) →
      splitOnChar c (joinSep (String.mk [c]) names).toList =
        names.map String.toList := by
  intro names
  induction names with
  | nil => intro h _; exact absurd rfl h
  | cons n tl ih =>
    intro _ hfree
    cases tl with
    | nil =>
      show splitOnChar c n.toList = [n.toList]
      exact splitOnChar_no_sep c n.toList
        (fun x hx => hfree n (by simp) x hx)
    | cons n' tl' =>
      have hjoin : joinSep (String.mk [c]) (n :: n' :: tl') =
          n ++ String.mk [c] ++ joinSep (String.mk [c]) (n' :: tl') := rfl
      rw [hjoin]
      have hdata : (n ++ String.mk [c] ++
          joinSep (String.mk [c]) (n' :: tl')).toList =
          n.toList ++ c :: (joinSep (String.mk [c]) (n' :: tl')).toList := by
        show (n ++ String.mk [c] ++ _).data = _
        rw [String.data_append, String.data_append]
        simp [String.toList]
      rw [hdata]
      have hsplit := splitOnChar_sep_block c n.toList
        ((joinSep (String.mk [c]) (n' :: tl')).toList)
        (fun x hx => hfree n (by simp) x hx)
      rw [hsplit]
      rw [ih (by simp) (fun m hm x hx => hfree m (by simp [hm]) x hx)]
      rfl

/-- Resolving the chain's name segments with `resolveSegs` walks the
lookups of `chainLookups` and ends at the chain's last entity. -/
lemma resolveSegs_chain (w : World) (st : Stage) :
    ∀ (d : List EntityId) (p E : EntityId),
      chainLookups w st p d →
      (∀ x ∈ d.dropLast, x ≠ 0) →
      d.getLast? = some E →
      w.nameOf E ≠ "" →
      resolveSegs w st p (d.map (fun e => (w.nameOf e).toList)) = E := by
  intro d
  induction d with
  | nil => intro p E _ _ hlast _; simp at hlast
  | cons e tl ih =>
    intro p E hlk hmid hlast hE
    obtain ⟨hstep, hlk'⟩ := hlk
    cases tl with
    | nil =>
      have hEe : E = e := by simpa using hlast.symm
      subst hEe
      show resolveSegs w st p [(w.nameOf E).toList] = E
      have hne : (w.nameOf E).toList.isEmpty = false := by
        cases hnn : (w.nameOf E).toList with
        | nil =>
          exfalso
          apply hE
          have : String.mk (w.nameOf E).toList = String.mk [] := by rw [hnn]
          simpa using this
        | cons a l => rfl
      simp only [resolveSegs, hne, Bool.false_eq_true, if_false]
      show ecs_lookup_child w st p (String.mk (w.nameOf E).toList) = E
      have hmk : String.mk (w.nameOf E).toList = w.nameOf E := rfl
      rw [hmk]
      exact hstep
    | cons e' tl' =>
      have he0 : e ≠ 0 := hmid e (by simp)
      show resolveSegs w st p
        ((w.nameOf e).toList :: (w.nameOf e').toList ::
          tl'.map (fun x => (w.nameOf x).toList)) = E
      simp only [resolveSegs]
      have hmk : String.mk (w.nameOf e).toList = w.nameOf e := rfl
      rw [hmk, hstep]
      rw [if_neg he0]
      have := ih e E hlk'
        (fun x hx => hmid x (by simp [hx]))
        (by simpa [List.getLast?_cons_cons] using hlast) hE
      simpa using this

/-! ## C9 -/

/-- C9: structure of `ecs_get_path_w_sep`.  (a) Equal parent and child
yield the empty string.  (b) When the child's upward ChildOf chain reaches
the given (nonzero) parent — exclusively: the parent itself is not
emitted — the path is the chain's names from the topmost ancestor down to
the child's own name, separator-joined, and the prefix string is not
emitted even when one is supplied.  (c) When the chain instead reaches the
hierarchy root (ChildOf target 0) without passing through the parent, the
same separator-joined names are emitted with the prefix string exactly
once, in front.  The pre-order recursion (ancestor text first, then
separator, then own name) is the `joinSep` shape of the result. -/
theorem C9_path_structure (w : World) (sep : String) (pf : String) :
    (∀ (fuel : Nat) (p : EntityId) (pfx : Option String),
      ecs_get_path_w_sep w fuel p p sep pfx = "")
    ∧ (∀ (P E : EntityId) (u : List EntityId) (fuel : Nat),
        P ≠ 0 → E ≠ P →
        ancChain w P (E :: u) →
        (∀ x ∈ u, x ≠ 0 ∧ x ≠ P) →
        u.length < fuel →
        ecs_get_path_w_sep w fuel P E sep (some pf) =
          joinSep sep ((E :: u).reverse.map w.nameOf))
    ∧ (∀ (P E : EntityId) (u : List EntityId) (fuel : Nat),
        E ≠ P →
        ancChain w 0 (E :: u) →
        (∀ x ∈ u, x ≠ 0 ∧ x ≠ P) →
        u.length < fuel →
        ecs_get_path_w_sep w fuel P E sep (some pf) =
          pf ++ joinSep sep ((E :: u).reverse.map w.nameOf)) := by
  refine ⟨?_, ?_, ?_⟩
  · intro fuel p pfx
    simp [ecs_get_path_w_sep]
  · intro P E u fuel hP hEP hch hmid hfuel
    have hPE : P ≠ E := fun h => hEP h.symm
    simp only [ecs_get_path_w_sep, if_pos hPE]
    rw [path_append_chain w (some pf) sep P P u E fuel (Or.inl rfl) hch hmid
      hfuel]
    rw [if_neg hP]
    exact String.nil_append _
  · intro P E u fuel hEP hch hmid hfuel
    have hPE : P ≠ E := fun h => hEP h.symm
    simp only [ecs_get_path_w_sep, if_pos hPE]
    rw [path_append_chain w (some pf) sep P 0 u E fuel (Or.inr rfl) hch hmid
      hfuel]
    rfl

/-- C9 witness in the two-level world: equal pair gives "", the chain
3 → 2 → 1 below parent 1 gives "a.b" with no prefix, and the chain
3 → 2 → 1 → 0 that never meets parent 5 gives the prefix once in front. -/
theorem C9_witness :
    ecs_get_path_w_sep twoLevelW 4 7 7 "." (some "::") = ""
    ∧ ecs_get_path_w_sep twoLevelW 4 1 3 "." (some "::") =
        joinSep "." ([3, 2].reverse.map twoLevelW.nameOf)
    ∧ ecs_get_path_w_sep twoLevelW 4 5 3 "." (some "::") =
        "::" ++ joinSep "." ([3, 2, 1].reverse.map twoLevelW.nameOf) := by
  refine ⟨(C9_path_structure twoLevelW "." "::").1 4 7 (some "::"), ?_, ?_⟩
  · exact (C9_path_structure twoLevelW "." "::").2.1 1 3 [2] 4
      (by decide) (by decide) ⟨rfl, rfl⟩ (by decide) (by decide)
  · exact (C9_path_structure twoLevelW "." "::").2.2 5 3 [2, 1] 4
      (by decide) ⟨rfl, rfl, rfl⟩ (by decide) (by decide)

/-! ## C2 -/

/-- C2 counterexample: in the duplicate world, entity 3 is reachable from
root 1 via ChildOf, it is named "kid", but the round trip
`lookupByPath (pathOf 3)` returns its identically named sibling 2, not 3:
`pathOf` is not a left inverse of `lookupByPath` as claimed. -/
theorem C2_counterexample :
    ancChain dupW 1 [3]
    ∧ dupW.nameOf 3 = "kid"
    ∧ ecs_lookup_path_w_sep dupW worldStage 1
        (ecs_get_path_w_sep dupW 4 1 3 "." none) "." none = 2
    ∧ (2 : EntityId) ≠ 3 := by
  exact ⟨rfl, rfl, by decide, by decide⟩

/-- C2 (amended): the round trip holds along chains the lookup can
actually retrace: if E's upward ChildOf chain (through `u`) reaches `root`
with every intermediate entity nonzero and different from `root`, every
chain name is free of the separator character, E's own name is nonempty,
and looking each chain entity's name up under its chain parent returns
exactly that entity (no shadowing by duplicates), then
`lookupByPath(root, pathOf(root, E, ".", none), ".", none) = E`. -/
theorem C2_roundtrip (w : World) (st : Stage) (root : EntityId)
    (u : List EntityId) (E : EntityId) (fuel : Nat)
    (hch : ancChain w root (E :: u))
    (hmid : ∀ x ∈ u, x ≠ 0 ∧ x ≠ root)
    (hlk : chainLookups w st root ((E :: u).reverse))
    (hsep : ∀ x ∈ E :: u, ∀ ch ∈ (w.nameOf x).toList, ch ≠ '.')
    (hE : w.nameOf E ≠ "")
    (hroot : E ≠ root)
    (hfuel : u.length < fuel) :
    ecs_lookup_path_w_sep w st root
      (ecs_get_path_w_sep w fuel root E "." none) "." none = E := by
  have hrE : root ≠ E := fun h => hroot h.symm
  have hpath : ecs_get_path_w_sep w fuel root E "." none =
      joinSep (String.mk ['.']) ((E :: u).reverse.map w.nameOf) := by
    show ecs_get_path_w_sep w fuel root E "." none =
      joinSep "." ((E :: u).reverse.map w.nameOf)
    simp only [ecs_get_path_w_sep, if_pos hrE]
    rw [path_append_chain w none "." root root u E fuel (Or.inl rfl) hch hmid
      hfuel]
    have : (if root = 0 then (none : Option String).getD "" else "") = "" := by
      split <;> rfl
    rw [this]
    exact String.nil_append _
  rw [hpath]
  show ecs_lookup_path_w_sep w st root
    (joinSep (String.mk ['.']) ((E :: u).reverse.map w.nameOf))
    (String.mk ['.']) none = E
  rw [lookup_path_resolve w st root _ '.']
  have hnames : (E :: u).reverse.map w.nameOf ≠ [] := by simp
  have hfree : ∀ n ∈ (E :: u).reverse.map w.nameOf,
      ∀ ch ∈ n.toList, ch ≠ '.' := by
    intro n hn ch hch2
    obtain ⟨x, hx, hxn⟩ := List.mem_map.mp hn
    exact hsep x (List.mem_reverse.mp hx) ch (hxn ▸ hch2)
  rw [splitOnChar_joinSep '.' ((E :: u).reverse.map w.nameOf) hnames hfree]
  have hmm : (((E :: u).reverse.map w.nameOf).map String.toList) =
      (E :: u).reverse.map (fun e => (w.nameOf e).toList) := by
    rw [List.map_map]
    rfl
  rw [hmm]
  have hdrop : ∀ x ∈ ((E :: u).reverse).dropLast, x ≠ 0 := by
    intro x hx
    rw [List.reverse_cons, List.dropLast_concat] at hx
    exact (hmid x (List.mem_reverse.mp hx)).1
  have hlast : ((E :: u).reverse).getLast? = some E := by
    rw [List.reverse_cons]
    exact List.getLast?_concat _
  exact resolveSegs_chain w st ((E :: u).reverse) root E hlk hdrop hlast hE

/-- C2 witness: in the two-level world the chain 1 → 2 ("a") → 3 ("b")
satisfies every hypothesis and the round trip returns 3. -/
theorem C2_witness :
    ecs_lookup_path_w_sep twoLevelW worldStage 1
      (ecs_get_path_w_sep twoLevelW 4 1 3 "." none) "." none = 3 :=
  C2_roundtrip twoLevelW worldStage 1 [2] 3 4 ⟨rfl, rfl⟩ (by decide)
    ⟨by decide, by decide, trivial⟩ (by decide) (by decide) (by decide)
    (by decide)

end Flecs
